import Mathlib

/-!
Verification of `didyoumean.js` (file `src/didYouMean-1.0.0.js`).

The development has three layers:

1. A reference Levenshtein recurrence `lev` over `List Char`, together with an
   edit-operation semantics (`Op`, `src`, `tgt`, `cost`) proving that `lev` is
   the least cost of an edit sequence, is symmetric, and satisfies the
   triangle inequality.

2. A faithful embedding `getEditDistance` of the source's dynamic-programming
   matrix (rows indexed by `b`, columns by `a`, filled row by row), proved
   equal to `lev` on reversed strings, hence itself the least edit cost.

3. A faithful embedding `didYouMean` of the matcher: JavaScript values are
   modelled by `JsVal`, runtime exceptions by `JsError`/`Except`, and the
   option object by `Config`.  JavaScript numbers are modelled by `ℚ`.
-/

namespace DYM

/-! ### Layer 1: the Levenshtein recurrence -/

/-- Reference Levenshtein distance, peeling characters from the front:
the classic recurrence with unit costs for substitution, insertion
and deletion. -/
def lev : List Char → List Char → Nat
  | [], ys => ys.length
  | x :: xs, [] => (x :: xs).length
  | x :: xs, y :: ys =>
    if x = y then lev xs ys
    else 1 + min (lev xs ys) (min (lev (x :: xs) ys) (lev xs (y :: ys)))
termination_by a b => a.length + b.length

/-! ### Edit scripts

An edit script is a left-to-right alignment of the two strings: a list of
per-position operations.  `src` reads off the string being edited, `tgt`
the string produced, and `cost` counts the insertions, deletions and
substitutions (a `keep` is free).  "The minimum number of single-character
insertions, deletions, and substitutions transforming `a` into `b`" is
formalised as the least `n` with `EditScript a b n`. -/

inductive Op where
  | keep (c : Char)
  | sub (x y : Char)
  | ins (y : Char)
  | del (x : Char)
deriving DecidableEq

/-- The string an edit script consumes. -/
def src : List Op → List Char
  | [] => []
  | .keep c :: t => c :: src t
  | .sub x _ :: t => x :: src t
  | .ins _ :: t => src t
  | .del x :: t => x :: src t

/-- The string an edit script produces. -/
def tgt : List Op → List Char
  | [] => []
  | .keep c :: t => c :: tgt t
  | .sub _ y :: t => y :: tgt t
  | .ins y :: t => y :: tgt t
  | .del _ :: t => tgt t

/-- Cost of a single operation: a `keep` is free, everything else costs 1. -/
def opCost : Op → Nat
  | .keep _ => 0
  | _ => 1

/-- Total cost of an edit script. -/
def cost (ops : List Op) : Nat := (ops.map opCost).sum

/-- Predicate `EditScript a b n`: holds when some edit script of cost `n` transforms
`a` into `b`. -/
def EditScript (a b : List Char) (n : Nat) : Prop :=
  ∃ ops : List Op, src ops = a ∧ tgt ops = b ∧ cost ops = n

/-- Composition of two edit scripts: merges an `a -> b` script with a
`b -> c` script into an `a -> c` script, matching the middle string
position by position. -/
def compOps : List Op → List Op → List Op
  | [], o2 => o2
  | op :: t1, [] => op :: t1
  | .del x :: t1, op2 :: t2 => .del x :: compOps t1 (op2 :: t2)
  | .keep c :: t1, .ins z :: t2 => .ins z :: compOps (.keep c :: t1) t2
  | .sub x y :: t1, .ins z :: t2 => .ins z :: compOps (.sub x y :: t1) t2
  | .ins y :: t1, .ins z :: t2 => .ins z :: compOps (.ins y :: t1) t2
  | .keep c :: t1, .keep _ :: t2 => .keep c :: compOps t1 t2
  | .keep c :: t1, .sub _ z :: t2 => .sub c z :: compOps t1 t2
  | .keep c :: t1, .del _ :: t2 => .del c :: compOps t1 t2
  | .sub x _ :: t1, .keep z :: t2 => .sub x z :: compOps t1 t2
  | .sub x _ :: t1, .sub _ z :: t2 => .sub x z :: compOps t1 t2
  | .sub x _ :: t1, .del _ :: t2 => .del x :: compOps t1 t2
  | .ins _ :: t1, .keep z :: t2 => .ins z :: compOps t1 t2
  | .ins _ :: t1, .sub _ z :: t2 => .ins z :: compOps t1 t2
  | .ins _ :: t1, .del _ :: t2 => compOps t1 t2
termination_by o1 o2 => o1.length + o2.length

/-! ### Layer 2: the source's `getEditDistance`

Embedding of `getEditDistance(a, b)` (source lines 177-209).  The source
fills a matrix with `b.length + 1` rows and `a.length + 1` columns:
`matrix[i] = [i]` seeds each row, `matrix[0][j] = j` seeds the first row,
and the main loop fills row `i` left to right from row `i - 1`, comparing
`b.charAt(i-1)` with `a.charAt(j-1)`.  We model a row as a `List Nat` and
the row-by-row fill as a fold over `b`.  `levRowAux` computes the cells
`matrix[i][1..]` of a row from the previous row `prev` (whose head is the
diagonal neighbour, and whose second entry is the cell straight above) and
the cell `left` just computed (`matrix[i][j-1]`). -/

def levRowAux (bi : Char) : List Char → List Nat → Nat → List Nat
  | [], _, _ => []
  | aj :: arest, prev, left =>
    let pdiag := prev.headD 0
    let up := prev.tail.headD 0
    let cell :=
      if bi = aj then pdiag
      else min (pdiag + 1) (min (left + 1) (up + 1))
    cell :: levRowAux bi arest prev.tail cell

/-- One row of the source's matrix: `matrix[i] = [i]` seeds the row (the
head of the previous row is `i - 1`), then the row is filled left to
right. -/
def stepRow (a : List Char) (prev : List Nat) (bi : Char) : List Nat :=
  let first := prev.headD 0 + 1
  first :: levRowAux bi a prev first

/-- Function `getEditDistance(a, b)`: the two length-zero early returns, then the
matrix fill, reading off `matrix[b.length][a.length]`. -/
def getEditDistance (a b : List Char) : Nat :=
  if a.length = 0 then b.length
  else if b.length = 0 then a.length
  else ((b.foldl (stepRow a) (List.range (a.length + 1))).getD a.length 0)

/-- The reversed nonempty prefixes of `xs`, each extended by `acc`:
`revInits acc [x1, x2, ...] = [x1 :: acc, x2 :: x1 :: acc, ...]`. -/
def revInits (acc : List Char) : List Char → List (List Char)
  | [] => []
  | x :: xs => (x :: acc) :: revInits (x :: acc) xs

/-- The intended value of the matrix row reached after consuming `B`
(stored reversed) from `b`: column `j` holds the distance between the
first `j` characters of `a` and the consumed part of `b`. -/
def rowFor (a B : List Char) : List Nat :=
  lev [] B :: (revInits [] a).map (fun p => lev p B)

/-! ### Layer 3: the matcher `didYouMean`

JavaScript values are modelled by `JsVal`; thrown exceptions by
`JsError` through `Except`.  JavaScript numbers are modelled by `ℚ`
(exact arithmetic; the float rounding of the original is not modelled).
`vobj` carries the object's own enumerable fields. -/

inductive JsVal where
  | vstr (s : List Char)
  | vnum (q : ℚ)
  | vbool (b : Bool)
  | vnull
  | vundefined
  | vobj (fields : List (List Char × JsVal))

inductive JsError where
  | typeError
  | referenceError
deriving DecidableEq

/-- JavaScript truthiness test (`!v` is `jsFalsy v`).  `NaN` is not
modelled (`vnum` is exact). -/
def jsFalsy : JsVal → Bool
  | .vstr s => s.isEmpty
  | .vnum q => q == 0
  | .vbool b => !b
  | .vnull => true
  | .vundefined => true
  | .vobj _ => false

/-- Model of `String.prototype.toLowerCase` (ASCII case folding; locale
and Unicode special cases are not modelled). -/
def toLowerCase (s : List Char) : List Char := s.map Char.toLower

/-- Property read `item[k]`: throws `TypeError` on `null`/`undefined`,
returns the field (or `undefined`) on objects; on other primitives the
model returns `undefined` (string index/`length`/method properties are
not modelled — the matcher's keys are field names). -/
def getProp (item : JsVal) (k : List Char) : Except JsError JsVal :=
  match item with
  | .vnull => .error .typeError
  | .vundefined => .error .typeError
  | .vobj fields => .ok ((fields.lookup k).getD .vundefined)
  | _ => .ok .vundefined

/-- The options object (source lines 166-169 set the defaults:
`threshold = 0.4`, `caseSensitive = false`, `nullResultValue = null`,
`returnWinningObject = null`, the latter modelled by its truthiness
`false`).  `threshold = none` models `didYouMean.threshold = null`. -/
structure Config where
  threshold : Option ℚ := some (mkRat 2 5)
  caseSensitive : Bool := false
  nullResultValue : JsVal := .vnull
  returnWinningObject : Bool := false

/-- Test `if (key)`: the key argument is given and truthy (a nonempty string). -/
def keyGiven : Option (List Char) → Bool
  | some k => !k.isEmpty
  | none => false

/-- Lines `candidate = list[i]; if (key) candidate = candidate[key];`
(source lines 141-143). -/
def candValue (key : Option (List Char)) (item : JsVal) : Except JsError JsVal :=
  match key with
  | some k => if k.isEmpty then .ok item else getProp item k
  | none => .ok item

/-- Extraction and normalization of one candidate (source lines 141-147):
`.ok none` when the gatekeeper `if (!candidate) continue;` skips it,
`.ok (some s)` with the (lower-cased unless `caseSensitive`) string
otherwise.  A truthy non-string candidate value throws a `TypeError`: with
`caseSensitive` unset `candidate.toLowerCase` is not a function, and with
`caseSensitive` set `getEditDistance` reads `.length` of a non-string
and then writes to an undefined matrix row. -/
def procCand (cfg : Config) (key : Option (List Char)) (item : JsVal) :
    Except JsError (Option (List Char)) :=
  match candValue key item with
  | .error e => .error e
  | .ok v =>
    if jsFalsy v then .ok none
    else
      match v with
      | .vstr s => .ok (some (if cfg.caseSensitive then s else toLowerCase s))
      | _ => .error .typeError

/-- Value `val = getEditDistance(str, candidate)` as a JavaScript number. -/
def dval (str cand : List Char) : ℚ := (getEditDistance str cand : ℕ)

/-- Condition `winningVal === null || val < winningVal` (source line 153). -/
def beats (winningVal : Option ℚ) (val : ℚ) : Bool :=
  match winningVal with
  | none => true
  | some wv => val < wv

/-- The value assigned to `winner` (source lines 155-157): the original
list item when a key was given and `returnWinningObject` is set,
otherwise the extracted (normalized) string. -/
def reprOf (cfg : Config) (key : Option (List Char)) (item : JsVal)
    (cand : List Char) : JsVal :=
  if keyGiven key && cfg.returnWinningObject then item else .vstr cand

/-- The loop state: `var winner, winningVal = ...` (source lines 134-136). -/
structure ScanState where
  winner : Option JsVal
  winningVal : Option ℚ

/-- One iteration of the candidate loop (source lines 139-159). -/
def scanStep (cfg : Config) (key : Option (List Char)) (str : List Char)
    (st : ScanState) (item : JsVal) : Except JsError ScanState :=
  match procCand cfg key item with
  | .error e => .error e
  | .ok none => .ok st
  | .ok (some cand) =>
    let val := dval str cand
    if beats st.winningVal val then
      .ok ⟨some (reprOf cfg key item cand), some val⟩
    else
      .ok st

/-- Line `if (!arguments.callee.caseSensitive) { str = str.toLowerCase(); }`
(source line 130). -/
def normStr (cfg : Config) (str0 : List Char) : List Char :=
  if cfg.caseSensitive then str0 else toLowerCase str0

/-- The running best starts unset, and `winningVal` starts as `null` when
`threshold === null`, else as `threshold * str.length`
(source lines 134-136; `str` is already normalized at this point). -/
def initState (cfg : Config) (str : List Char) : ScanState :=
  ⟨none, cfg.threshold.map (fun t => t * (str.length : ℚ))⟩

/-- The matcher `didYouMean(str, list, key)` (source lines 126-163), with
the current option values passed as `cfg`.  The input is `none` when the
`str` argument is absent (`undefined`).

The final statement of the source reads
`return winner || argument.callee.nullResultValue;` — note `argument`,
not `arguments`: when `winner` is unset (or falsy) the identifier
`argument` is resolved, which is undefined, so the call throws a
`ReferenceError` instead of returning `nullResultValue`. -/
def didYouMean (cfg : Config) (strIn : Option (List Char)) (list : List JsVal)
    (key : Option (List Char)) : Except JsError JsVal :=
  match strIn with
  | none => .ok (.vbool false)
  | some str0 =>
    if str0.isEmpty then .ok (.vbool false)
    else
      let str := normStr cfg str0
      match list.foldlM (scanStep cfg key str) (initState cfg str) with
      | .error e => .error e
      | .ok fin =>
        match fin.winner with
        | some w => if jsFalsy w then .error .referenceError else .ok w
        | none => .error .referenceError

/-! ### Scan analysis -/

/-- The distance contributed by one list item: `some` exactly when the
item is extracted, not skipped, and well-formed. -/
def distOf (cfg : Config) (key : Option (List Char)) (str : List Char)
    (item : JsVal) : Option ℚ :=
  match procCand cfg key item with
  | .ok (some cand) => some (dval str cand)
  | _ => none

/-- The distances of all considered candidates, in list order. -/
def dists (cfg : Config) (key : Option (List Char)) (str : List Char)
    (l : List JsVal) : List ℚ :=
  l.filterMap (distOf cfg key str)

/-- Well-formed candidate lists: no item throws during extraction or
normalization (each is a string, a record whose designated field is a
string, or something falsy/missing that the gatekeeper skips). -/
def WfList (cfg : Config) (key : Option (List Char)) (l : List JsVal) : Prop :=
  ∀ item ∈ l, ∃ o, procCand cfg key item = .ok o

/-- Pure denotation of the candidate loop on well-formed lists. -/
def scanFold (cfg : Config) (key : Option (List Char)) (str : List Char) :
    ScanState → List JsVal → ScanState
  | st, [] => st
  | st, item :: rest =>
    match procCand cfg key item with
    | .ok (some cand) =>
      if beats st.winningVal (dval str cand) then
        scanFold cfg key str ⟨some (reprOf cfg key item cand), some (dval str cand)⟩ rest
      else scanFold cfg key str st rest
    | _ => scanFold cfg key str st rest

/-- Invariant carried by the loop state: an unset winner leaves
`winningVal` at its initial value `B`, and a set winner originates from a
considered candidate of the list, carries its distance as `winningVal`,
and that distance beats the initial value. -/
def ScanInv (cfg : Config) (key : Option (List Char)) (str : List Char)
    (L : List JsVal) (B : Option ℚ) (st : ScanState) : Prop :=
  (st.winner = none → st.winningVal = B) ∧
  (∀ w, st.winner = some w →
    ∃ item ∈ L, ∃ cand,
      procCand cfg key item = .ok (some cand) ∧
      w = reprOf cfg key item cand ∧
      st.winningVal = some (dval str cand) ∧
      (∀ b, B = some b → dval str cand < b))

theorem lev_nil_left (b : List Char) : lev [] b = b.length := by
  simp [lev]

theorem lev_nil_right (a : List Char) : lev a [] = a.length := by
  cases a <;> simp [lev]

theorem lev_cons_cons (x y : Char) (xs ys : List Char) :
    lev (x :: xs) (y :: ys) =
      if x = y then lev xs ys
      else 1 + min (lev xs ys) (min (lev (x :: xs) ys) (lev xs (y :: ys))) := by
  rw [lev]

/-- Adding or removing one leading character on either side changes the
distance by at most one.  All four bounds are proved simultaneously by
strong induction on the total length. -/
theorem lev_adjacent :
    ∀ n, ∀ a b : List Char, a.length + b.length ≤ n →
      (∀ x, lev (x :: a) b ≤ lev a b + 1) ∧
      (∀ y, lev a (y :: b) ≤ lev a b + 1) ∧
      (∀ x, lev a b ≤ lev (x :: a) b + 1) ∧
      (∀ y, lev a b ≤ lev a (y :: b) + 1) := by
  intro n
  induction n with
  | zero =>
    intro a b h
    have ha : a = [] := by
      cases a with
      | nil => rfl
      | cons z zs => simp at h
    have hb : b = [] := by
      cases b with
      | nil => rfl
      | cons z zs => simp at h
    subst ha; subst hb
    refine ⟨?_, ?_, ?_, ?_⟩ <;> intro z <;> simp [lev]
  | succ n ih =>
    intro a b h
    refine ⟨?_, ?_, ?_, ?_⟩
    · -- lev (x :: a) b ≤ lev a b + 1
      intro x
      cases b with
      | nil => simp [lev_nil_right, lev]
      | cons y b' =>
        rw [lev_cons_cons]
        by_cases hxy : x = y
        · subst hxy
          simp only [if_pos rfl]
          exact (ih a b' (by simp at h ⊢; omega)).2.2.2 x
        · simp only [if_neg hxy]
          omega
    · -- lev a (y :: b) ≤ lev a b + 1
      intro y
      cases a with
      | nil => simp [lev_nil_left, lev]
      | cons x a' =>
        rw [lev_cons_cons]
        by_cases hxy : x = y
        · subst hxy
          simp only [if_pos rfl]
          exact (ih a' b (by simp at h ⊢; omega)).2.2.1 x
        · simp only [if_neg hxy]
          omega
    · -- lev a b ≤ lev (x :: a) b + 1
      intro x
      cases b with
      | nil => simp [lev_nil_right, lev]; omega
      | cons y b' =>
        rw [lev_cons_cons (x := x)]
        by_cases hxy : x = y
        · subst hxy
          simp only [if_pos rfl]
          exact (ih a b' (by simp at h ⊢; omega)).2.1 x
        · simp only [if_neg hxy]
          have f1 := (ih a b' (by simp at h ⊢; omega)).2.1 y
          have f2 := (ih a b' (by simp at h ⊢; omega)).2.2.1 x
          omega
    · -- lev a b ≤ lev a (y :: b) + 1
      intro y
      cases a with
      | nil => simp [lev_nil_left, lev]; omega
      | cons x a' =>
        rw [lev_cons_cons]
        by_cases hxy : x = y
        · subst hxy
          simp only [if_pos rfl]
          exact (ih a' b (by simp at h ⊢; omega)).1 x
        · simp only [if_neg hxy]
          have f1 := (ih a' b (by simp at h ⊢; omega)).1 x
          have f2 := (ih a' b (by simp at h ⊢; omega)).2.2.2 y
          omega

theorem lev_cons_left_le (x : Char) (a b : List Char) :
    lev (x :: a) b ≤ lev a b + 1 :=
  (lev_adjacent (a.length + b.length) a b le_rfl).1 x

theorem lev_cons_right_le (y : Char) (a b : List Char) :
    lev a (y :: b) ≤ lev a b + 1 :=
  (lev_adjacent (a.length + b.length) a b le_rfl).2.1 y

theorem lev_sub_le (x y : Char) (a b : List Char) :
    lev (x :: a) (y :: b) ≤ lev a b + 1 := by
  rw [lev_cons_cons]
  by_cases hxy : x = y
  · simp only [if_pos hxy]; omega
  · simp only [if_neg hxy]; omega

theorem lev_keep (x : Char) (a b : List Char) :
    lev (x :: a) (x :: b) = lev a b := by
  rw [lev_cons_cons]; simp

theorem cost_nil : cost [] = 0 := rfl

theorem cost_cons (op : Op) (t : List Op) : cost (op :: t) = opCost op + cost t := by
  simp [cost]

theorem src_append (l1 l2 : List Op) : src (l1 ++ l2) = src l1 ++ src l2 := by
  induction l1 with
  | nil => rfl
  | cons op t ih => cases op <;> simp [src, ih]

theorem tgt_append (l1 l2 : List Op) : tgt (l1 ++ l2) = tgt l1 ++ tgt l2 := by
  induction l1 with
  | nil => rfl
  | cons op t ih => cases op <;> simp [tgt, ih]

theorem cost_append (l1 l2 : List Op) : cost (l1 ++ l2) = cost l1 + cost l2 := by
  simp [cost]

theorem src_reverse (ops : List Op) : src ops.reverse = (src ops).reverse := by
  induction ops with
  | nil => rfl
  | cons op t ih =>
    cases op <;> simp [src, List.reverse_cons, src_append, ih]

theorem tgt_reverse (ops : List Op) : tgt ops.reverse = (tgt ops).reverse := by
  induction ops with
  | nil => rfl
  | cons op t ih =>
    cases op <;> simp [tgt, List.reverse_cons, tgt_append, ih]

theorem cost_reverse (ops : List Op) : cost ops.reverse = cost ops := by
  simp only [cost, List.map_reverse, List.sum_reverse]

/-- Lower bound: no edit script beats the recurrence. -/
theorem lev_le_cost (ops : List Op) : lev (src ops) (tgt ops) ≤ cost ops := by
  induction ops with
  | nil => simp [src, tgt, lev, cost]
  | cons op t ih =>
    cases op with
    | keep c =>
      simpa [src, tgt, cost_cons, opCost, lev_keep] using ih
    | sub x y =>
      simp only [src, tgt, cost_cons, opCost]
      exact le_trans (lev_sub_le x y (src t) (tgt t)) (by omega)
    | ins y =>
      simp only [src, tgt, cost_cons, opCost]
      exact le_trans (lev_cons_right_le y (src t) (tgt t)) (by omega)
    | del x =>
      simp only [src, tgt, cost_cons, opCost]
      exact le_trans (lev_cons_left_le x (src t) (tgt t)) (by omega)

theorem lev_le_of_editScript {a b : List Char} {n : Nat} (h : EditScript a b n) :
    lev a b ≤ n := by
  obtain ⟨ops, hs, ht, hc⟩ := h
  simpa [hs, ht, hc] using lev_le_cost ops

/-- Achievability: the recurrence's value is realised by an edit script. -/
theorem editScript_lev : ∀ n (a b : List Char), a.length + b.length ≤ n →
    EditScript a b (lev a b) := by
  intro n
  induction n with
  | zero =>
    intro a b h
    have ha : a = [] := by cases a with | nil => rfl | cons z zs => simp at h
    have hb : b = [] := by cases b with | nil => rfl | cons z zs => simp at h
    subst ha; subst hb
    exact ⟨[], rfl, rfl, by simp [lev, cost]⟩
  | succ n ih =>
    intro a b h
    cases a with
    | nil =>
      refine ⟨b.map Op.ins, ?_, ?_, ?_⟩
      · induction b with
        | nil => rfl
        | cons y ys ihb => simpa [src] using ihb (by simp at h ⊢; omega)
      · clear h; induction b with
        | nil => rfl
        | cons y ys ihb => simpa [tgt] using ihb
      · clear h; simp only [lev_nil_left]
        induction b with
        | nil => rfl
        | cons y ys ihb => simp [cost_cons, opCost, ihb]; omega
    | cons x a' =>
      cases b with
      | nil =>
        refine ⟨(x :: a').map Op.del, ?_, ?_, ?_⟩
        · clear h ih; induction a' with
          | nil => rfl
          | cons z zs ihb => simpa [src] using ihb
        · clear h ih; induction a' with
          | nil => rfl
          | cons z zs ihb => simpa [tgt] using ihb
        · clear h ih; simp only [lev_nil_right]
          induction a' with
          | nil => simp [cost_cons, opCost, cost_nil]
          | cons z zs ihb => simp [cost_cons, opCost] at ihb ⊢; omega
      | cons y b' =>
        by_cases hxy : x = y
        · subst hxy
          obtain ⟨ops, hs, ht, hc⟩ := ih a' b' (by simp at h ⊢; omega)
          exact ⟨.keep x :: ops, by simp [src, hs], by simp [tgt, ht],
            by simp [cost_cons, opCost, hc, lev_keep]⟩
        · have hd1 := ih a' b' (by simp at h ⊢; omega)
          have hd2 := ih (x :: a') b' (by simp at h ⊢; omega)
          have hd3 := ih a' (y :: b') (by simp at h ⊢; omega)
          have hlev := lev_cons_cons x y a' b'
          rw [if_neg hxy] at hlev
          rcases le_total (lev a' b') (min (lev (x :: a') b') (lev a' (y :: b'))) with h1 | h1
          · obtain ⟨ops, hs, ht, hc⟩ := hd1
            refine ⟨.sub x y :: ops, by simp [src, hs], by simp [tgt, ht], ?_⟩
            simp only [cost_cons, opCost, hc, hlev]
            omega
          · rcases le_total (lev (x :: a') b') (lev a' (y :: b')) with h2 | h2
            · obtain ⟨ops, hs, ht, hc⟩ := hd2
              refine ⟨.ins y :: ops, by simp [src, hs], by simp [tgt, ht], ?_⟩
              simp only [cost_cons, opCost, hc, hlev]
              omega
            · obtain ⟨ops, hs, ht, hc⟩ := hd3
              refine ⟨.del x :: ops, by simp [src, hs], by simp [tgt, ht], ?_⟩
              simp only [cost_cons, opCost, hc, hlev]
              omega

/-- Minimality: `lev a b` is the least cost of an edit script from `a` to `b`. -/
theorem lev_isLeast (a b : List Char) :
    IsLeast {n : Nat | EditScript a b n} (lev a b) :=
  ⟨editScript_lev (a.length + b.length) a b le_rfl,
   fun _ hn => lev_le_of_editScript hn⟩

/-- When the first script's output is the second script's input, the
composite consumes the first script's input, produces the second script's
output, and costs at most the sum. -/
theorem compOps_spec : ∀ o1 o2 : List Op, tgt o1 = src o2 →
    src (compOps o1 o2) = src o1 ∧ tgt (compOps o1 o2) = tgt o2 ∧
      cost (compOps o1 o2) ≤ cost o1 + cost o2 := by
  intro o1 o2
  induction o1, o2 using compOps.induct with
  | case1 o2 =>
    intro h
    simp only [tgt] at h
    refine ⟨?_, by simp only [compOps], ?_⟩
    · simp only [compOps, src, ← h]
    · simp only [compOps, cost_nil]; omega
  | case2 op t1 =>
    intro h
    simp only [src] at h
    refine ⟨by simp only [compOps], ?_, ?_⟩
    · simp only [compOps, h, tgt]
    · simp only [compOps, cost_nil]; omega
  | case3 x t1 op2 t2 ih =>
    intro h
    simp only [tgt] at h
    obtain ⟨h1, h2, h3⟩ := ih h
    refine ⟨?_, ?_, ?_⟩
    · simp only [compOps, src, h1]
    · simp only [compOps, tgt, h2]
    · simp only [compOps, cost_cons, opCost] at h3 ⊢; omega
  | case4 c t1 z t2 ih =>
    intro h
    simp only [src] at h
    obtain ⟨h1, h2, h3⟩ := ih h
    refine ⟨?_, ?_, ?_⟩
    · simp only [compOps, src, h1]
    · simp only [compOps, tgt, h2]
    · simp only [compOps, cost_cons, opCost] at h3 ⊢; omega
  | case5 x y t1 z t2 ih =>
    intro h
    simp only [src] at h
    obtain ⟨h1, h2, h3⟩ := ih h
    refine ⟨?_, ?_, ?_⟩
    · simp only [compOps, src, h1]
    · simp only [compOps, tgt, h2]
    · simp only [compOps, cost_cons, opCost] at h3 ⊢; omega
  | case6 y t1 z t2 ih =>
    intro h
    simp only [src] at h
    obtain ⟨h1, h2, h3⟩ := ih h
    refine ⟨?_, ?_, ?_⟩
    · simp only [compOps, src, h1]
    · simp only [compOps, tgt, h2]
    · simp only [compOps, cost_cons, opCost] at h3 ⊢; omega
  | case7 c t1 c1 t2 ih =>
    intro h
    simp only [tgt, src] at h
    obtain ⟨hc, hrest⟩ := List.cons.inj h
    obtain ⟨h1, h2, h3⟩ := ih hrest
    subst hc
    refine ⟨?_, ?_, ?_⟩
    · simp only [compOps, src, h1]
    · simp only [compOps, tgt, h2]
    · simp only [compOps, cost_cons, opCost] at h3 ⊢; omega
  | case8 c t1 x z t2 ih =>
    intro h
    simp only [tgt, src] at h
    obtain ⟨hc, hrest⟩ := List.cons.inj h
    obtain ⟨h1, h2, h3⟩ := ih hrest
    refine ⟨?_, ?_, ?_⟩
    · simp only [compOps, src, h1]
    · simp only [compOps, tgt, h2]
    · simp only [compOps, cost_cons, opCost] at h3 ⊢; omega
  | case9 c t1 x t2 ih =>
    intro h
    simp only [tgt, src] at h
    obtain ⟨hc, hrest⟩ := List.cons.inj h
    obtain ⟨h1, h2, h3⟩ := ih hrest
    refine ⟨?_, ?_, ?_⟩
    · simp only [compOps, src, h1]
    · simp only [compOps, tgt, h2]
    · simp only [compOps, cost_cons, opCost] at h3 ⊢; omega
  | case10 x y t1 z t2 ih =>
    intro h
    simp only [tgt, src] at h
    obtain ⟨hc, hrest⟩ := List.cons.inj h
    obtain ⟨h1, h2, h3⟩ := ih hrest
    subst hc
    refine ⟨?_, ?_, ?_⟩
    · simp only [compOps, src, h1]
    · simp only [compOps, tgt, h2]
    · simp only [compOps, cost_cons, opCost] at h3 ⊢; omega
  | case11 x y t1 x1 z t2 ih =>
    intro h
    simp only [tgt, src] at h
    obtain ⟨hc, hrest⟩ := List.cons.inj h
    obtain ⟨h1, h2, h3⟩ := ih hrest
    refine ⟨?_, ?_, ?_⟩
    · simp only [compOps, src, h1]
    · simp only [compOps, tgt, h2]
    · simp only [compOps, cost_cons, opCost] at h3 ⊢; omega
  | case12 x y t1 x1 t2 ih =>
    intro h
    simp only [tgt, src] at h
    obtain ⟨hc, hrest⟩ := List.cons.inj h
    obtain ⟨h1, h2, h3⟩ := ih hrest
    refine ⟨?_, ?_, ?_⟩
    · simp only [compOps, src, h1]
    · simp only [compOps, tgt, h2]
    · simp only [compOps, cost_cons, opCost] at h3 ⊢; omega
  | case13 y t1 z t2 ih =>
    intro h
    simp only [tgt, src] at h
    obtain ⟨hc, hrest⟩ := List.cons.inj h
    obtain ⟨h1, h2, h3⟩ := ih hrest
    subst hc
    refine ⟨?_, ?_, ?_⟩
    · simp only [compOps, src, h1]
    · simp only [compOps, tgt, h2]
    · simp only [compOps, cost_cons, opCost] at h3 ⊢; omega
  | case14 y t1 x z t2 ih =>
    intro h
    simp only [tgt, src] at h
    obtain ⟨hc, hrest⟩ := List.cons.inj h
    obtain ⟨h1, h2, h3⟩ := ih hrest
    refine ⟨?_, ?_, ?_⟩
    · simp only [compOps, src, h1]
    · simp only [compOps, tgt, h2]
    · simp only [compOps, cost_cons, opCost] at h3 ⊢; omega
  | case15 y t1 x t2 ih =>
    intro h
    simp only [tgt, src] at h
    obtain ⟨hc, hrest⟩ := List.cons.inj h
    obtain ⟨h1, h2, h3⟩ := ih hrest
    refine ⟨?_, ?_, ?_⟩
    · simp only [compOps, src, h1]
    · simp only [compOps, tgt, h2]
    · simp only [compOps, cost_cons, opCost] at h3 ⊢; omega

/-- Triangle inequality for the recurrence. -/
theorem lev_triangle_rec (a b c : List Char) :
    lev a c ≤ lev a b + lev b c := by
  obtain ⟨o1, hs1, ht1, hc1⟩ :=
    editScript_lev (a.length + b.length) a b le_rfl
  obtain ⟨o2, hs2, ht2, hc2⟩ :=
    editScript_lev (b.length + c.length) b c le_rfl
  obtain ⟨h1, h2, h3⟩ := compOps_spec o1 o2 (ht1.trans hs2.symm)
  have hle := lev_le_cost (compOps o1 o2)
  rw [h1, h2, hs1, ht2] at hle
  omega

/-- Symmetry of the recurrence. -/
theorem lev_symm_rec : ∀ n, ∀ a b : List Char, a.length + b.length ≤ n →
    lev a b = lev b a := by
  intro n
  induction n with
  | zero =>
    intro a b h
    have ha : a = [] := by cases a with | nil => rfl | cons z zs => simp at h
    have hb : b = [] := by cases b with | nil => rfl | cons z zs => simp at h
    subst ha; subst hb; rfl
  | succ n ih =>
    intro a b h
    cases a with
    | nil => simp [lev_nil_left, lev_nil_right]
    | cons x a' =>
      cases b with
      | nil => simp [lev_nil_left, lev_nil_right]
      | cons y b' =>
        rw [lev_cons_cons, lev_cons_cons]
        have e1 : lev a' b' = lev b' a' := ih a' b' (by simp at h ⊢; omega)
        have e2 : lev (x :: a') b' = lev b' (x :: a') :=
          ih (x :: a') b' (by simp at h ⊢; omega)
        have e3 : lev a' (y :: b') = lev (y :: b') a' :=
          ih a' (y :: b') (by simp at h ⊢; omega)
        by_cases hxy : x = y
        · subst hxy; simp [e1]
        · rw [if_neg hxy, if_neg (fun hyx => hxy hyx.symm)]
          rw [e1, e2, e3]
          omega

theorem revInits_length (xs : List Char) : ∀ acc, (revInits acc xs).length = xs.length := by
  induction xs with
  | nil => intro acc; rfl
  | cons x xs ih => intro acc; simp [revInits, ih]

theorem levRowAux_spec (c : Char) :
    ∀ (xs acc B : List Char) (left : Nat), left = lev acc (c :: B) →
      levRowAux c xs (lev acc B :: (revInits acc xs).map (fun p => lev p B)) left
        = (revInits acc xs).map (fun p => lev p (c :: B)) := by
  intro xs
  induction xs with
  | nil => intro acc B left hleft; rfl
  | cons aj arest ih =>
    intro acc B left hleft
    simp only [revInits, List.map_cons, levRowAux, List.headD_cons, List.tail_cons,
      List.cons.injEq]
    have hcell :
        (if c = aj then lev acc B
         else min (lev acc B + 1) (min (left + 1) (lev (aj :: acc) B + 1)))
          = lev (aj :: acc) (c :: B) := by
      rw [lev_cons_cons]
      by_cases hca : c = aj
      · subst hca; simp
      · rw [if_neg hca, if_neg (fun haj => hca haj.symm)]
        subst hleft
        omega
    refine ⟨hcell, ?_⟩
    rw [hcell]
    exact ih (aj :: acc) B _ rfl

theorem stepRow_rowFor (a B : List Char) (c : Char) :
    stepRow a (rowFor a B) c = rowFor a (c :: B) := by
  have hfirst : lev [] B + 1 = lev [] (c :: B) := by
    simp [lev_nil_left]
  simp only [stepRow, rowFor, List.headD_cons]
  rw [hfirst]
  exact congrArg _ (levRowAux_spec c a [] B _ rfl)

theorem foldl_stepRow (a : List Char) :
    ∀ (bs B : List Char), bs.foldl (stepRow a) (rowFor a B) = rowFor a (bs.reverse ++ B) := by
  intro bs
  induction bs with
  | nil => intro B; rfl
  | cons c bs ih =>
    intro B
    simp only [List.foldl_cons, stepRow_rowFor, List.reverse_cons, List.append_assoc,
      List.cons_append, List.nil_append]
    exact ih (c :: B)

theorem rowFor_nil (a : List Char) : rowFor a [] = List.range (a.length + 1) := by
  have key : ∀ (xs acc : List Char),
      (revInits acc xs).map (fun p => lev p []) =
        (List.range xs.length).map (fun k => acc.length + k + 1) := by
    intro xs
    induction xs with
    | nil => intro acc; rfl
    | cons x xs ih =>
      intro acc
      simp only [List.length_cons]
      rw [List.range_succ_eq_map]
      simp only [revInits, List.map_cons, List.map_map, List.cons.injEq]
      constructor
      · simp [lev_nil_right]
      · rw [ih (x :: acc)]
        apply List.map_congr_left
        intro k _
        simp only [Function.comp_apply, List.length_cons]
        omega
  rw [List.range_succ_eq_map]
  unfold rowFor
  rw [key a [], lev_nil_left]
  simp only [List.length_nil, List.map_map, List.cons.injEq]
  refine ⟨by simp [lev_nil_left], ?_⟩
  apply List.map_congr_left
  intro k _
  omega

theorem revInits_map_getD (f : List Char → Nat) :
    ∀ (xs acc : List Char), xs ≠ [] →
      ((revInits acc xs).map f).getD (xs.length - 1) 0 = f (xs.reverse ++ acc) := by
  intro xs
  induction xs with
  | nil => intro acc h; exact absurd rfl h
  | cons x xs ih =>
    intro acc _
    cases xs with
    | nil => rfl
    | cons z zs =>
      rw [show revInits acc (x :: z :: zs) = (x :: acc) :: revInits (x :: acc) (z :: zs)
        from rfl]
      rw [List.map_cons]
      rw [show (x :: z :: zs : List Char).length - 1 = ((z :: zs : List Char).length - 1) + 1
        by simp]
      rw [List.getD_cons_succ]
      rw [ih (x :: acc) (by simp)]
      simp

theorem getEditDistance_eq_lev (a b : List Char) :
    getEditDistance a b = lev a.reverse b.reverse := by
  by_cases ha : a.length = 0
  · have ha2 : a = [] := List.length_eq_zero.mp ha
    subst ha2
    simp [getEditDistance, lev_nil_left]
  · by_cases hb : b.length = 0
    · have hb2 : b = [] := List.length_eq_zero.mp hb
      subst hb2
      simp [getEditDistance, lev_nil_right, ha]
    · have hne : a ≠ [] := fun h => ha (by simp [h])
      rw [getEditDistance, if_neg ha, if_neg hb]
      rw [← rowFor_nil, foldl_stepRow a b [], List.append_nil]
      unfold rowFor
      rw [show a.length = (a.length - 1) + 1 by
        cases a with
        | nil => exact absurd rfl hne
        | cons z zs => simp]
      rw [List.getD_cons_succ]
      rw [revInits_map_getD _ a [] hne]
      simp

/-- The least-cost characterization transfers to the source's function:
`getEditDistance a b` is the least cost of an edit script from `a` to `b`.
(The matrix peels characters from the back, so the proof goes through the
reversed strings and reverses the scripts.) -/
theorem getEditDistance_isLeast (a b : List Char) :
    IsLeast {n : Nat | EditScript a b n} (getEditDistance a b) := by
  constructor
  · obtain ⟨ops, hs, ht, hc⟩ :=
      (lev_isLeast a.reverse b.reverse).1
    refine ⟨ops.reverse, ?_, ?_, ?_⟩
    · rw [src_reverse, hs, List.reverse_reverse]
    · rw [tgt_reverse, ht, List.reverse_reverse]
    · rw [cost_reverse, hc, getEditDistance_eq_lev]
  · rintro n ⟨ops, hs, ht, hc⟩
    rw [getEditDistance_eq_lev]
    have := lev_le_cost ops.reverse
    rw [src_reverse, tgt_reverse, cost_reverse, hs, ht, hc] at this
    exact this

theorem beats_none (d : ℚ) : beats none d = true := rfl

theorem beats_some_iff (v d : ℚ) : beats (some v) d = true ↔ d < v := by
  simp [beats]

theorem beats_some_false_iff (v d : ℚ) : beats (some v) d = false ↔ v ≤ d := by
  simp [beats]

theorem dists_nil (cfg : Config) (key : Option (List Char)) (str : List Char) :
    dists cfg key str [] = [] := rfl

theorem dists_cons_skip (cfg : Config) (key : Option (List Char)) (str : List Char)
    (item : JsVal) (rest : List JsVal) (h : distOf cfg key str item = none) :
    dists cfg key str (item :: rest) = dists cfg key str rest := by
  simp [dists, List.filterMap_cons, h]

theorem dists_cons_val (cfg : Config) (key : Option (List Char)) (str : List Char)
    (item : JsVal) (rest : List JsVal) (d : ℚ) (h : distOf cfg key str item = some d) :
    dists cfg key str (item :: rest) = d :: dists cfg key str rest := by
  simp [dists, List.filterMap_cons, h]

theorem distOf_eq_some (cfg : Config) (key : Option (List Char)) (str : List Char)
    (item : JsVal) (cand : List Char) (h : procCand cfg key item = .ok (some cand)) :
    distOf cfg key str item = some (dval str cand) := by
  simp [distOf, h]

theorem distOf_eq_none (cfg : Config) (key : Option (List Char)) (str : List Char)
    (item : JsVal) (h : procCand cfg key item = .ok none) :
    distOf cfg key str item = none := by
  simp [distOf, h]

/-- On a well-formed list the monadic loop computes `scanFold`. -/
theorem foldlM_eq_scanFold (cfg : Config) (key : Option (List Char)) (str : List Char) :
    ∀ (l : List JsVal) (st : ScanState), WfList cfg key l →
      l.foldlM (scanStep cfg key str) st = .ok (scanFold cfg key str st l) := by
  intro l
  induction l with
  | nil => intro st _; rfl
  | cons item rest ih =>
    intro st hwf
    obtain ⟨o, ho⟩ := hwf item (List.mem_cons_self item rest)
    have hwf' : WfList cfg key rest := fun x hx => hwf x (List.mem_cons_of_mem _ hx)
    rw [List.foldlM_cons]
    cases o with
    | none =>
      rw [show scanStep cfg key str st item = .ok st by simp [scanStep, ho]]
      rw [show scanFold cfg key str st (item :: rest) = scanFold cfg key str st rest by
        simp [scanFold, ho]]
      simpa using ih st hwf'
    | some cand =>
      by_cases hb : beats st.winningVal (dval str cand) = true
      · rw [show scanStep cfg key str st item
            = .ok ⟨some (reprOf cfg key item cand), some (dval str cand)⟩ by
          simp [scanStep, ho, hb]]
        rw [show scanFold cfg key str st (item :: rest)
            = scanFold cfg key str ⟨some (reprOf cfg key item cand), some (dval str cand)⟩ rest by
          simp [scanFold, ho, hb]]
        simpa using ih _ hwf'
      · rw [show scanStep cfg key str st item = .ok st by
          simp [scanStep, ho, Bool.not_eq_true _ ▸ hb]]
        rw [show scanFold cfg key str st (item :: rest) = scanFold cfg key str st rest by
          simp [scanFold, ho, hb]]
        simpa using ih st hwf'

/-- If no considered candidate beats the current `winningVal`, the loop
leaves the state unchanged. -/
theorem scanFold_id (cfg : Config) (key : Option (List Char)) (str : List Char) :
    ∀ (l : List JsVal) (st : ScanState),
      (∀ d ∈ dists cfg key str l, beats st.winningVal d = false) →
      scanFold cfg key str st l = st := by
  intro l
  induction l with
  | nil => intro st _; rfl
  | cons item rest ih =>
    intro st hno
    cases ho : procCand cfg key item with
    | error e =>
      rw [show scanFold cfg key str st (item :: rest) = scanFold cfg key str st rest by
        simp [scanFold, ho]]
      refine ih st (fun d hd => hno d ?_)
      rwa [dists_cons_skip cfg key str item rest (by simp [distOf, ho])]
    | ok o =>
      cases o with
      | none =>
        rw [show scanFold cfg key str st (item :: rest) = scanFold cfg key str st rest by
          simp [scanFold, ho]]
        refine ih st (fun d hd => hno d ?_)
        rwa [dists_cons_skip cfg key str item rest (distOf_eq_none cfg key str item ho)]
      | some cand =>
        have hd0 : beats st.winningVal (dval str cand) = false := by
          apply hno
          rw [dists_cons_val cfg key str item rest _ (distOf_eq_some cfg key str item cand ho)]
          exact List.mem_cons_self _ _
        rw [show scanFold cfg key str st (item :: rest) = scanFold cfg key str st rest by
          simp [scanFold, ho, hd0]]
        refine ih st (fun d hd => hno d ?_)
        rw [dists_cons_val cfg key str item rest _ (distOf_eq_some cfg key str item cand ho)]
        exact List.mem_cons_of_mem _ hd

/-- If some considered candidate beats the current `winningVal`, the loop
ends with the first candidate achieving the minimum distance as winner,
and that minimum as `winningVal`. -/
theorem scanFold_min (cfg : Config) (key : Option (List Char)) (str : List Char) :
    ∀ (l : List JsVal) (st : ScanState),
      WfList cfg key l →
      (∃ d ∈ dists cfg key str l, beats st.winningVal d = true) →
      ∃ l1 item l2 cand,
        l = l1 ++ item :: l2 ∧
        procCand cfg key item = .ok (some cand) ∧
        scanFold cfg key str st l
          = ⟨some (reprOf cfg key item cand), some (dval str cand)⟩ ∧
        beats st.winningVal (dval str cand) = true ∧
        (∀ d ∈ dists cfg key str l, dval str cand ≤ d) ∧
        (∀ d ∈ dists cfg key str l1, dval str cand < d) := by
  intro l
  induction l with
  | nil => intro st _ hex; simp [dists_nil] at hex
  | cons item rest ih =>
    intro st hwf hex
    obtain ⟨o, ho⟩ := hwf item (List.mem_cons_self item rest)
    have hwf' : WfList cfg key rest := fun x hx => hwf x (List.mem_cons_of_mem _ hx)
    cases o with
    | none =>
      have hsk := distOf_eq_none cfg key str item ho
      have hd : dists cfg key str (item :: rest) = dists cfg key str rest :=
        dists_cons_skip cfg key str item rest hsk
      rw [hd] at hex
      obtain ⟨l1, w, l2, cand, hsplit, hpc, hfold, hbeats, hmin, hstrict⟩ := ih st hwf' hex
      refine ⟨item :: l1, w, l2, cand, by simp [hsplit], hpc, ?_, hbeats, ?_, ?_⟩
      · rw [show scanFold cfg key str st (item :: rest) = scanFold cfg key str st rest by
          simp [scanFold, ho]]
        exact hfold
      · rw [hd]; exact hmin
      · rwa [dists_cons_skip cfg key str item l1 hsk]
    | some cand0 =>
      have hv := distOf_eq_some cfg key str item cand0 ho
      have hd : dists cfg key str (item :: rest)
          = dval str cand0 :: dists cfg key str rest :=
        dists_cons_val cfg key str item rest _ hv
      cases hb : beats st.winningVal (dval str cand0) with
      | true =>
        rw [show scanFold cfg key str st (item :: rest)
            = scanFold cfg key str
                ⟨some (reprOf cfg key item cand0), some (dval str cand0)⟩ rest by
          simp [scanFold, ho, hb]]
        by_cases hex2 : ∃ d ∈ dists cfg key str rest, beats (some (dval str cand0)) d = true
        · obtain ⟨l1, w, l2, cand, hsplit, hpc, hfold, hbeats, hmin, hstrict⟩ :=
            ih ⟨some (reprOf cfg key item cand0), some (dval str cand0)⟩ hwf' hex2
          have hlt : dval str cand < dval str cand0 := (beats_some_iff _ _).mp hbeats
          refine ⟨item :: l1, w, l2, cand, by simp [hsplit], hpc, hfold, ?_, ?_, ?_⟩
          · cases hwv : st.winningVal with
            | none => rfl
            | some v =>
              rw [hwv] at hb
              exact (beats_some_iff _ _).mpr (lt_trans hlt ((beats_some_iff _ _).mp hb))
          · rw [hd]
            intro d hdm
            rcases List.mem_cons.mp hdm with h | h
            · subst h; exact le_of_lt hlt
            · exact hmin d h
          · rw [dists_cons_val cfg key str item l1 _ hv]
            intro d hdm
            rcases List.mem_cons.mp hdm with h | h
            · subst h; exact hlt
            · exact hstrict d h
        · have hno : ∀ d ∈ dists cfg key str rest,
              beats (some (dval str cand0)) d = false := by
            intro d hdm
            rcases hfb : beats (some (dval str cand0)) d with hv2 | hv2
            · rfl
            · exact absurd ⟨d, hdm, hfb⟩ hex2
          rw [scanFold_id cfg key str rest _ (by simpa using hno)]
          refine ⟨[], item, rest, cand0, rfl, ho, rfl, hb, ?_, by simp [dists_nil]⟩
          rw [hd]
          intro d hdm
          rcases List.mem_cons.mp hdm with h | h
          · subst h; exact le_rfl
          · exact (beats_some_false_iff _ _).mp (hno d h)
      | false =>
        obtain ⟨v, hwv⟩ : ∃ v, st.winningVal = some v := by
          cases hwv : st.winningVal with
          | none => rw [hwv] at hb; simp [beats_none] at hb
          | some v => exact ⟨v, rfl⟩
        have hvle : v ≤ dval str cand0 := by
          rw [hwv] at hb; exact (beats_some_false_iff _ _).mp hb
        rw [show scanFold cfg key str st (item :: rest) = scanFold cfg key str st rest by
          simp [scanFold, ho, hb]]
        have hex2 : ∃ d ∈ dists cfg key str rest, beats st.winningVal d = true := by
          obtain ⟨d, hdm, hdb⟩ := hex
          rw [hd] at hdm
          rcases List.mem_cons.mp hdm with h | h
          · subst h; rw [hdb] at hb; cases hb
          · exact ⟨d, h, hdb⟩
        obtain ⟨l1, w, l2, cand, hsplit, hpc, hfold, hbeats, hmin, hstrict⟩ :=
          ih st hwf' hex2
        have hlt : dval str cand < v := by
          rw [hwv] at hbeats; exact (beats_some_iff _ _).mp hbeats
        refine ⟨item :: l1, w, l2, cand, by simp [hsplit], hpc, hfold, hbeats, ?_, ?_⟩
        · rw [hd]
          intro d hdm
          rcases List.mem_cons.mp hdm with h | h
          · subst h; exact le_of_lt (lt_of_lt_of_le hlt hvle)
          · exact hmin d h
        · rw [dists_cons_val cfg key str item l1 _ hv]
          intro d hdm
          rcases List.mem_cons.mp hdm with h | h
          · subst h; exact lt_of_lt_of_le hlt hvle
          · exact hstrict d h

theorem scanStep_inv (cfg : Config) (key : Option (List Char)) (str : List Char)
    (L : List JsVal) (B : Option ℚ) (st st1 : ScanState) (item : JsVal)
    (hmem : item ∈ L)
    (hstep : scanStep cfg key str st item = .ok st1)
    (hinv : ScanInv cfg key str L B st) : ScanInv cfg key str L B st1 := by
  rcases hinv with ⟨h0, h1⟩
  cases ho : procCand cfg key item with
  | error e => rw [scanStep, ho] at hstep; cases hstep
  | ok o =>
    cases o with
    | none =>
      rw [scanStep, ho] at hstep
      cases hstep
      exact ⟨h0, h1⟩
    | some cand =>
      simp only [scanStep, ho] at hstep
      by_cases hb : beats st.winningVal (dval str cand) = true
      · rw [if_pos hb] at hstep
        cases hstep
        constructor
        · intro h; cases h
        · intro w hw
          simp only [Option.some.injEq] at hw
          refine ⟨item, hmem, cand, ho, hw.symm, rfl, ?_⟩
          intro b hB
          cases hwin : st.winner with
          | none =>
            have := h0 hwin
            rw [this, hB] at hb
            exact (beats_some_iff _ _).mp hb
          | some w0 =>
            obtain ⟨_, _, _, _, _, hval, hlt⟩ := h1 w0 hwin
            rw [hval] at hb
            exact lt_trans ((beats_some_iff _ _).mp hb) (hlt b hB)
      · rw [if_neg hb] at hstep
        cases hstep
        exact ⟨h0, h1⟩

theorem foldlM_inv (cfg : Config) (key : Option (List Char)) (str : List Char)
    (L : List JsVal) (B : Option ℚ) :
    ∀ (l : List JsVal) (st st' : ScanState),
      (∀ x ∈ l, x ∈ L) →
      l.foldlM (scanStep cfg key str) st = .ok st' →
      ScanInv cfg key str L B st → ScanInv cfg key str L B st' := by
  intro l
  induction l with
  | nil =>
    intro st st' _ hfold hinv
    simp only [List.foldlM_nil] at hfold
    cases hfold
    exact hinv
  | cons item rest ih =>
    intro st st' hsub hfold hinv
    rw [List.foldlM_cons] at hfold
    cases hstep : scanStep cfg key str st item with
    | error e => rw [hstep] at hfold; cases hfold
    | ok st1 =>
      rw [hstep] at hfold
      exact ih st1 st' (fun x hx => hsub x (List.mem_cons_of_mem _ hx)) hfold
        (scanStep_inv cfg key str L B st st1 item
          (hsub item (List.mem_cons_self item rest)) hstep hinv)

/-- A winner value is always truthy (so the final
`return winner || ...` returns it rather than evaluating the buggy
right-hand side). -/
theorem reprOf_truthy (cfg : Config) (key : Option (List Char)) (item : JsVal)
    (cand : List Char) (h : procCand cfg key item = .ok (some cand)) :
    jsFalsy (reprOf cfg key item cand) = false := by
  have hcand : cand ≠ [] := by
    intro hc
    subst hc
    rw [procCand] at h
    cases hv : candValue key item with
    | error e => rw [hv] at h; cases h
    | ok v =>
      simp only [hv] at h
      by_cases hf : jsFalsy v = true
      · rw [if_pos hf] at h; cases h
      · rw [if_neg hf] at h
        cases v with
        | vstr s =>
          simp only [Option.some.injEq, Except.ok.injEq] at h
          by_cases hcs : cfg.caseSensitive
          · rw [if_pos hcs] at h
            subst h
            simp [jsFalsy] at hf
          · rw [if_neg hcs] at h
            have : s = [] := by
              cases s with
              | nil => rfl
              | cons c cs => simp [toLowerCase] at h
            subst this
            simp [jsFalsy] at hf
        | vnum q => cases h
        | vbool b => cases h
        | vnull => cases h
        | vundefined => cases h
        | vobj fields => cases h
  rw [reprOf]
  by_cases hk : (keyGiven key && cfg.returnWinningObject) = true
  · rw [if_pos hk]
    -- the winner is the original record: extraction succeeded on a truthy
    -- string, which forces the item to be an object
    rw [procCand] at h
    cases hv : candValue key item with
    | error e => rw [hv] at h; cases h
    | ok v =>
      simp only [hv] at h
      by_cases hf : jsFalsy v = true
      · rw [if_pos hf] at h; cases h
      · rw [if_neg hf] at h
        have hkg : keyGiven key = true := by
          cases hkey : keyGiven key with
          | true => rfl
          | false => rw [hkey] at hk; simp at hk
        obtain ⟨k, hkk⟩ : ∃ k, key = some k := by
          cases key with
          | none => simp [keyGiven] at hkg
          | some k => exact ⟨k, rfl⟩
        have hkne : k.isEmpty = false := by
          rw [hkk] at hkg
          simpa [keyGiven] using hkg
        rw [hkk, candValue, if_neg (by rw [hkne]; exact Bool.false_ne_true)] at hv
        cases item with
        | vnull => simp [getProp] at hv
        | vundefined => simp [getProp] at hv
        | vobj fields => simp [jsFalsy]
        | vstr s =>
          simp only [getProp, Except.ok.injEq] at hv
          subst hv
          simp [jsFalsy] at hf
        | vnum q =>
          simp only [getProp, Except.ok.injEq] at hv
          subst hv
          simp [jsFalsy] at hf
        | vbool b =>
          simp only [getProp, Except.ok.injEq] at hv
          subst hv
          simp [jsFalsy] at hf
  · rw [if_neg hk]
    simpa [jsFalsy] using hcand

theorem normStr_length (cfg : Config) (str0 : List Char) :
    (normStr cfg str0).length = str0.length := by
  rw [normStr]
  by_cases hcs : cfg.caseSensitive
  · rw [if_pos hcs]
  · rw [if_neg hcs]; simp [toLowerCase]

theorem normStr_ne_nil (cfg : Config) (str0 : List Char) (h : str0 ≠ []) :
    normStr cfg str0 ≠ [] := by
  intro hc
  apply h
  have := normStr_length cfg str0
  rw [hc] at this
  exact List.length_eq_zero.mp this.symm

/-- Unfolding of `didYouMean` on a nonempty present input. -/
theorem didYouMean_some (cfg : Config) (str0 : List Char) (list : List JsVal)
    (key : Option (List Char)) (h : str0 ≠ []) :
    didYouMean cfg (some str0) list key =
      match list.foldlM (scanStep cfg key (normStr cfg str0))
          (initState cfg (normStr cfg str0)) with
      | .error e => .error e
      | .ok fin =>
        match fin.winner with
        | some w => if jsFalsy w then .error .referenceError else .ok w
        | none => .error .referenceError := by
  rw [didYouMean]
  rw [if_neg (by simp [List.isEmpty_iff, h])]

/-! ### Claim theorems -/

/-- C2: `getEditDistance(a, b)` returns the Levenshtein edit distance —
the minimum number of single-character insertions, deletions and
substitutions transforming one string into the other (stated as: it is
the least cost of an edit script) — and if either string is empty the
result is the other string's length. -/
theorem getEditDistance_levenshtein (a b : List Char) :
    IsLeast {n : Nat | EditScript a b n} (getEditDistance a b) ∧
    getEditDistance a [] = a.length ∧ getEditDistance [] b = b.length := by
  refine ⟨getEditDistance_isLeast a b, ?_, ?_⟩
  · rw [getEditDistance_eq_lev]
    simp [lev_nil_right]
  · rw [getEditDistance_eq_lev]
    simp [lev_nil_left]

/-- C8: `getEditDistance` is symmetric. -/
theorem getEditDistance_comm (a b : List Char) :
    getEditDistance a b = getEditDistance b a := by
  rw [getEditDistance_eq_lev, getEditDistance_eq_lev]
  exact lev_symm_rec (a.reverse.length + b.reverse.length) a.reverse b.reverse le_rfl

/-- C9: `getEditDistance` satisfies the triangle inequality. -/
theorem getEditDistance_triangle (a b c : List Char) :
    getEditDistance a c ≤ getEditDistance a b + getEditDistance b c := by
  rw [getEditDistance_eq_lev, getEditDistance_eq_lev, getEditDistance_eq_lev]
  exact lev_triangle_rec a.reverse b.reverse c.reverse

/-- C3: an absent or empty input string returns the literal `false`
(source line 127: `if (!str) return false;`), for every configuration,
candidate list and key — in particular independently of
`nullResultValue`. -/
theorem didYouMean_empty_input_false (cfg : Config) (list : List JsVal)
    (key : Option (List Char)) :
    didYouMean cfg none list key = .ok (.vbool false) ∧
    didYouMean cfg (some []) list key = .ok (.vbool false) :=
  ⟨rfl, rfl⟩

/-- C1 (code bug): with the default configuration, an input no candidate
can match makes the call throw a `ReferenceError` instead of returning
`nullResultValue`: source line 162 reads
`return winner || argument.callee.nullResultValue;` and `argument` (sic)
is an undefined identifier.  Here `getEditDistance("ab", "zzzzzz") = 6`
is not below `0.4 * 2`, so no winner is ever set. -/
theorem didYouMean_no_winner_referenceError :
    didYouMean {} (some ['a', 'b']) [.vstr ['z', 'z', 'z', 'z', 'z', 'z']] none
      = .error .referenceError := by
  with_unfolding_all rfl

/-- C4 (counterexample): a record whose designated field holds a truthy
non-string (here the number 1) is not skipped: the call throws a
`TypeError` (`candidate.toLowerCase is not a function`), and the scan
never reaches the exact match right after it. -/
theorem didYouMean_nonstring_value_typeError :
    didYouMean {} (some ['a', 'b'])
        [.vobj [(['i', 'd'], .vnum 1)], .vstr ['a', 'b']] (some ['i', 'd'])
      = .error .typeError := by
  with_unfolding_all rfl

/-- C4 (amended): a candidate whose extracted value is missing or
otherwise falsy — in particular a record missing the designated key — is
silently skipped: removing it from the list does not change the result
of the match, so it never becomes the winner, never raises an error, and
the scan continues over the remaining candidates.  (Truthy non-string
values are NOT skipped; see the counterexample theorem.) -/
theorem didYouMean_falsy_candidate_skipped (cfg : Config)
    (strIn : Option (List Char)) (key : Option (List Char))
    (l1 l2 : List JsVal) (item : JsVal) (v : JsVal)
    (hv : candValue key item = .ok v) (hfalsy : jsFalsy v = true) :
    didYouMean cfg strIn (l1 ++ item :: l2) key
      = didYouMean cfg strIn (l1 ++ l2) key := by
  have hstep : ∀ (str : List Char) (st : ScanState),
      scanStep cfg key str st item = .ok st := by
    intro str st
    simp [scanStep, procCand, hv, hfalsy]
  have hfold : ∀ (str : List Char) (st : ScanState),
      (l1 ++ item :: l2).foldlM (scanStep cfg key str) st
        = (l1 ++ l2).foldlM (scanStep cfg key str) st := by
    intro str
    induction l1 with
    | nil =>
      intro st
      simp only [List.nil_append, List.foldlM_cons, hstep str st]
      rfl
    | cons x l1x ih =>
      intro st
      simp only [List.cons_append, List.foldlM_cons]
      cases hx : scanStep cfg key str st x with
      | error e => rfl
      | ok st1 => exact ih st1
  cases strIn with
  | none => rfl
  | some str0 =>
    by_cases h0 : str0.isEmpty = true
    · simp only [didYouMean, if_pos h0]
    · simp only [didYouMean, if_neg h0]
      rw [hfold]

/-- Witness for the amended C4, at a record missing the key `id`. -/
theorem didYouMean_falsy_candidate_skipped_witness :
    candValue (some ['i', 'd']) (.vobj []) = .ok .vundefined ∧
    jsFalsy JsVal.vundefined = true ∧
    didYouMean {} (some ['a', 'b'])
        ([] ++ JsVal.vobj [] :: [JsVal.vobj [(['i', 'd'], .vstr ['a', 'b'])]])
        (some ['i', 'd'])
      = didYouMean {} (some ['a', 'b'])
          ([] ++ [JsVal.vobj [(['i', 'd'], .vstr ['a', 'b'])]]) (some ['i', 'd']) :=
  ⟨by with_unfolding_all rfl, rfl,
    didYouMean_falsy_candidate_skipped {} (some ['a', 'b']) (some ['i', 'd'])
      [] [JsVal.vobj [(['i', 'd'], .vstr ['a', 'b'])]] (.vobj []) .vundefined
      (by with_unfolding_all rfl) rfl⟩

/-- C5: when a threshold `t ≥ 0` is configured, whatever `didYouMean`
returns successfully on a nonempty input is the representation of a
candidate whose edit distance to the (normalized) input is strictly less
than `t * str.length`. -/
theorem didYouMean_threshold_strict_bound (cfg : Config) (str0 : List Char)
    (list : List JsVal) (key : Option (List Char)) (t : ℚ) (w : JsVal)
    (hth : cfg.threshold = some t) (ht0 : 0 ≤ t) (hstr : str0 ≠ [])
    (hres : didYouMean cfg (some str0) list key = .ok w) :
    ∃ item ∈ list, ∃ cand,
      procCand cfg key item = .ok (some cand) ∧
      w = reprOf cfg key item cand ∧
      dval (normStr cfg str0) cand < t * (str0.length : ℚ) := by
  rw [didYouMean_some cfg str0 list key hstr] at hres
  cases hfold : list.foldlM (scanStep cfg key (normStr cfg str0))
      (initState cfg (normStr cfg str0)) with
  | error e => rw [hfold] at hres; cases hres
  | ok fin =>
    rw [hfold] at hres
    have hres2 : (match fin.winner with
        | some w0 => if jsFalsy w0 = true then Except.error JsError.referenceError
                     else Except.ok w0
        | none => (Except.error JsError.referenceError : Except JsError JsVal))
          = Except.ok w := hres
    clear hres
    have hinv : ScanInv cfg key (normStr cfg str0) list
        (some (t * ((normStr cfg str0).length : ℚ))) fin := by
      refine foldlM_inv cfg key (normStr cfg str0) list _ list
        (initState cfg (normStr cfg str0)) fin (fun x hx => hx) hfold ⟨?_, ?_⟩
      · intro _
        simp [initState, hth]
      · intro w0 hw0
        simp [initState] at hw0
    cases hwin : fin.winner with
    | none => rw [hwin] at hres2; cases hres2
    | some w0 =>
      rw [hwin] at hres2
      simp only at hres2
      by_cases hfw : jsFalsy w0 = true
      · rw [if_pos hfw] at hres2; cases hres2
      · rw [if_neg hfw] at hres2
        have hww : w0 = w := by
          simpa using hres2
        subst hww
        obtain ⟨item, hmem, cand, hpc, hrepr, _, hbound⟩ := hinv.2 w0 hwin
        refine ⟨item, hmem, cand, hpc, hrepr, ?_⟩
        have := hbound (t * ((normStr cfg str0).length : ℚ)) rfl
        rwa [normStr_length] at this

/-- Witness for C5: the default threshold `0.4` on input `"ab"` with the
single candidate `"ab"` (distance 0 < 0.8). -/
theorem didYouMean_threshold_strict_bound_witness :
    Config.threshold {} = some (mkRat 2 5) ∧
    (0 : ℚ) ≤ mkRat 2 5 ∧
    (['a', 'b'] : List Char) ≠ [] ∧
    didYouMean {} (some ['a', 'b']) [.vstr ['a', 'b']] none = .ok (.vstr ['a', 'b']) ∧
    (∃ item ∈ ([.vstr ['a', 'b']] : List JsVal), ∃ cand,
      procCand {} none item = .ok (some cand) ∧
      JsVal.vstr ['a', 'b'] = reprOf {} none item cand ∧
      dval (normStr {} ['a', 'b']) cand < mkRat 2 5 * ((['a', 'b'] : List Char).length : ℚ)) :=
  ⟨rfl, by with_unfolding_all decide, by simp,
    by with_unfolding_all rfl,
    didYouMean_threshold_strict_bound {} ['a', 'b'] [.vstr ['a', 'b']] none
      (mkRat 2 5) (.vstr ['a', 'b']) rfl (by with_unfolding_all decide)
      (by simp) (by with_unfolding_all rfl)⟩

theorem procCand_insensitive (cfg : Config) (key : Option (List Char))
    (item : JsVal) (cand : List Char) (hcs : cfg.caseSensitive = false)
    (h : procCand cfg key item = .ok (some cand)) :
    ∃ s0, candValue key item = .ok (.vstr s0) ∧ cand = toLowerCase s0 := by
  rw [procCand] at h
  cases hv : candValue key item with
  | error e => rw [hv] at h; cases h
  | ok v =>
    simp only [hv] at h
    by_cases hf : jsFalsy v = true
    · rw [if_pos hf] at h; cases h
    · rw [if_neg hf] at h
      cases v with
      | vstr s0 =>
        refine ⟨s0, rfl, ?_⟩
        rw [hcs] at h
        simpa using h.symm
      | vnum q => cases h
      | vbool b => cases h
      | vnull => cases h
      | vundefined => cases h
      | vobj fields => cases h

/-- With a (truthy) key, a plain string in the list is always skipped:
reading the field off a string value yields `undefined` in this model. -/
theorem procCand_vstr_skipped (cfg : Config) (k s : List Char)
    (hk : k.isEmpty = false) :
    procCand cfg (some k) (.vstr s) = .ok none := by
  simp [procCand, candValue, hk, getProp, jsFalsy]

/-- C10: with case-insensitive matching (the default), when the match
returns a plain string it is the lower-cased form of the winning
candidate's extracted value, not the original text. -/
theorem didYouMean_returns_lowercased (cfg : Config) (str0 : List Char)
    (list : List JsVal) (key : Option (List Char)) (s : List Char)
    (hcs : cfg.caseSensitive = false) (hstr : str0 ≠ [])
    (hres : didYouMean cfg (some str0) list key = .ok (.vstr s)) :
    ∃ item ∈ list, ∃ s0,
      candValue key item = .ok (.vstr s0) ∧ s = toLowerCase s0 := by
  rw [didYouMean_some cfg str0 list key hstr] at hres
  cases hfold : list.foldlM (scanStep cfg key (normStr cfg str0))
      (initState cfg (normStr cfg str0)) with
  | error e => rw [hfold] at hres; cases hres
  | ok fin =>
    rw [hfold] at hres
    have hres2 : (match fin.winner with
        | some w0 => if jsFalsy w0 = true then Except.error JsError.referenceError
                     else Except.ok w0
        | none => (Except.error JsError.referenceError : Except JsError JsVal))
          = Except.ok (JsVal.vstr s) := hres
    clear hres
    have hinv : ScanInv cfg key (normStr cfg str0) list
        (initState cfg (normStr cfg str0)).winningVal fin := by
      refine foldlM_inv cfg key (normStr cfg str0) list _ list
        (initState cfg (normStr cfg str0)) fin (fun x hx => hx) hfold ⟨?_, ?_⟩
      · intro _; rfl
      · intro w0 hw0
        simp [initState] at hw0
    cases hwin : fin.winner with
    | none => rw [hwin] at hres2; cases hres2
    | some w0 =>
      rw [hwin] at hres2
      simp only at hres2
      by_cases hfw : jsFalsy w0 = true
      · rw [if_pos hfw] at hres2; cases hres2
      · rw [if_neg hfw] at hres2
        have hww : w0 = .vstr s := by simpa using hres2
        subst hww
        obtain ⟨item, hmem, cand, hpc, hrepr, _, _⟩ := hinv.2 _ hwin
        obtain ⟨s0, hv0, hlow⟩ := procCand_insensitive cfg key item cand hcs hpc
        refine ⟨item, hmem, s0, hv0, ?_⟩
        rw [reprOf] at hrepr
        by_cases hkr : (keyGiven key && cfg.returnWinningObject) = true
        · rw [if_pos hkr] at hrepr
          -- the winner is the original record, yet it is the string s:
          -- then the extraction would have been skipped, contradiction
          have hkg : keyGiven key = true := by
            cases hkey : keyGiven key with
            | true => rfl
            | false => rw [hkey] at hkr; simp at hkr
          obtain ⟨k, hkk⟩ : ∃ k, key = some k := by
            cases key with
            | none => simp [keyGiven] at hkg
            | some k => exact ⟨k, rfl⟩
          have hkne : k.isEmpty = false := by
            rw [hkk] at hkg
            simpa [keyGiven] using hkg
          rw [← hrepr, hkk] at hpc
          rw [procCand_vstr_skipped cfg k s hkne] at hpc
          cases hpc
        · rw [if_neg hkr] at hrepr
          have : s = cand := by
            cases hrepr; rfl
          rw [this, hlow]

/-- Witness for C10: input `"aB"` against candidate `"AB"` returns the
lower-cased `"ab"`. -/
theorem didYouMean_returns_lowercased_witness :
    Config.caseSensitive {} = false ∧
    (['a', 'B'] : List Char) ≠ [] ∧
    didYouMean {} (some ['a', 'B']) [.vstr ['A', 'B']] none = .ok (.vstr ['a', 'b']) ∧
    (∃ item ∈ ([.vstr ['A', 'B']] : List JsVal), ∃ s0,
      candValue none item = .ok (.vstr s0) ∧ (['a', 'b'] : List Char) = toLowerCase s0) :=
  ⟨rfl, by simp, by with_unfolding_all rfl,
    didYouMean_returns_lowercased {} ['a', 'B'] [.vstr ['A', 'B']] none ['a', 'b']
      rfl (by simp) (by with_unfolding_all rfl)⟩

theorem dval_mem_dists (cfg : Config) (key : Option (List Char)) (str : List Char)
    (l : List JsVal) (item : JsVal) (cand : List Char)
    (hmem : item ∈ l) (hpc : procCand cfg key item = .ok (some cand)) :
    dval str cand ∈ dists cfg key str l :=
  List.mem_filterMap.mpr ⟨item, hmem, by simp [distOf, hpc]⟩

/-- C7: with `threshold = null`, on a nonempty input and a well-formed
candidate list with at least one considered candidate, the match always
returns the (first) closest candidate, however large its distance. -/
theorem didYouMean_null_threshold_closest (cfg : Config) (str0 : List Char)
    (list : List JsVal) (key : Option (List Char))
    (hth : cfg.threshold = none) (hstr : str0 ≠ [])
    (hwf : WfList cfg key list)
    (hsome : ∃ item ∈ list, ∃ cand, procCand cfg key item = .ok (some cand)) :
    ∃ l1 item l2 cand,
      list = l1 ++ item :: l2 ∧
      procCand cfg key item = .ok (some cand) ∧
      didYouMean cfg (some str0) list key = .ok (reprOf cfg key item cand) ∧
      (∀ d ∈ dists cfg key (normStr cfg str0) list,
        dval (normStr cfg str0) cand ≤ d) ∧
      (∀ d ∈ dists cfg key (normStr cfg str0) l1,
        dval (normStr cfg str0) cand < d) := by
  obtain ⟨item0, hmem0, cand0, hpc0⟩ := hsome
  have hinit : initState cfg (normStr cfg str0) = ⟨none, none⟩ := by
    simp [initState, hth]
  have hex : ∃ d ∈ dists cfg key (normStr cfg str0) list,
      beats (initState cfg (normStr cfg str0)).winningVal d = true := by
    refine ⟨dval (normStr cfg str0) cand0,
      dval_mem_dists cfg key (normStr cfg str0) list item0 cand0 hmem0 hpc0, ?_⟩
    rw [hinit]
    rfl
  obtain ⟨l1, item, l2, cand, hsplit, hpc, hfoldeq, hb, hmin, hstrict⟩ :=
    scanFold_min cfg key (normStr cfg str0) list
      (initState cfg (normStr cfg str0)) hwf hex
  refine ⟨l1, item, l2, cand, hsplit, hpc, ?_, hmin, hstrict⟩
  rw [didYouMean_some cfg str0 list key hstr]
  rw [foldlM_eq_scanFold cfg key (normStr cfg str0) list
    (initState cfg (normStr cfg str0)) hwf]
  rw [hfoldeq]
  simp only
  rw [if_neg (by rw [reprOf_truthy cfg key item cand hpc]; exact Bool.false_ne_true)]

/-- Witness for C7: `threshold = null`, one-character input `"a"`, a
distant candidate `"xy"` still wins. -/
theorem didYouMean_null_threshold_closest_witness :
    Config.threshold { threshold := none } = none ∧
    (['a'] : List Char) ≠ [] ∧
    WfList { threshold := none } none [.vstr ['x', 'y']] ∧
    (∃ item ∈ ([.vstr ['x', 'y']] : List JsVal), ∃ cand,
      procCand { threshold := none } none item = .ok (some cand)) ∧
    (∃ l1 item l2 cand,
      ([.vstr ['x', 'y']] : List JsVal) = l1 ++ item :: l2 ∧
      procCand { threshold := none } none item = .ok (some cand) ∧
      didYouMean { threshold := none } (some ['a']) [.vstr ['x', 'y']] none
        = .ok (reprOf { threshold := none } none item cand) ∧
      (∀ d ∈ dists { threshold := none } none (normStr { threshold := none } ['a'])
          [.vstr ['x', 'y']],
        dval (normStr { threshold := none } ['a']) cand ≤ d) ∧
      (∀ d ∈ dists { threshold := none } none (normStr { threshold := none } ['a']) l1,
        dval (normStr { threshold := none } ['a']) cand < d)) :=
  ⟨rfl, by simp,
    fun item hm => by
      rw [List.mem_singleton.mp hm]
      exact ⟨some ['x', 'y'], by with_unfolding_all rfl⟩,
    ⟨.vstr ['x', 'y'], List.mem_singleton.mpr rfl,
      ['x', 'y'], by with_unfolding_all rfl⟩,
    didYouMean_null_threshold_closest { threshold := none } ['a']
      [.vstr ['x', 'y']] none rfl (by simp)
      (fun item hm => by
        rw [List.mem_singleton.mp hm]
        exact ⟨some ['x', 'y'], by with_unfolding_all rfl⟩)
      ⟨.vstr ['x', 'y'], List.mem_singleton.mpr rfl,
        ['x', 'y'], by with_unfolding_all rfl⟩⟩

/-- C6: when two considered candidates achieve the same minimal distance
(and that distance qualifies against the initial `winningVal`), the
single forward pass with its strict-less-than comparison returns the one
appearing earlier in the list. -/
theorem didYouMean_tie_first_wins (cfg : Config) (str0 : List Char)
    (key : Option (List Char)) (l1 l2 l3 : List JsVal) (w1 w2 : JsVal)
    (s1 s2 : List Char)
    (hstr : str0 ≠ [])
    (hwf : WfList cfg key (l1 ++ w1 :: (l2 ++ w2 :: l3)))
    (h1 : procCand cfg key w1 = .ok (some s1))
    (h2 : procCand cfg key w2 = .ok (some s2))
    (htie : dval (normStr cfg str0) s1 = dval (normStr cfg str0) s2)
    (hqual : beats (initState cfg (normStr cfg str0)).winningVal
        (dval (normStr cfg str0) s1) = true)
    (hmin : ∀ d ∈ dists cfg key (normStr cfg str0) (l1 ++ w1 :: (l2 ++ w2 :: l3)),
        dval (normStr cfg str0) s1 ≤ d)
    (hfirst : ∀ d ∈ dists cfg key (normStr cfg str0) l1,
        dval (normStr cfg str0) s1 < d) :
    didYouMean cfg (some str0) (l1 ++ w1 :: (l2 ++ w2 :: l3)) key
      = .ok (reprOf cfg key w1 s1) := by
  set L := l1 ++ w1 :: (l2 ++ w2 :: l3) with hL
  have hmemw1 : w1 ∈ L := by
    rw [hL]
    exact List.mem_append_right _ (List.mem_cons_self _ _)
  have hex : ∃ d ∈ dists cfg key (normStr cfg str0) L,
      beats (initState cfg (normStr cfg str0)).winningVal d = true :=
    ⟨dval (normStr cfg str0) s1,
      dval_mem_dists cfg key (normStr cfg str0) L w1 s1 hmemw1 h1, hqual⟩
  obtain ⟨l1x, wx, l2x, candx, hsplit, hpcx, hfoldeq, hbx, hminx, hstrictx⟩ :=
    scanFold_min cfg key (normStr cfg str0) L
      (initState cfg (normStr cfg str0)) hwf hex
  have hmemwx : wx ∈ L := by
    rw [hsplit]
    exact List.mem_append_right _ (List.mem_cons_self _ _)
  -- the two minima agree
  have heq : dval (normStr cfg str0) candx = dval (normStr cfg str0) s1 := by
    have hle1 : dval (normStr cfg str0) candx ≤ dval (normStr cfg str0) s1 :=
      hminx _ (dval_mem_dists cfg key (normStr cfg str0) L w1 s1 hmemw1 h1)
    have hle2 : dval (normStr cfg str0) s1 ≤ dval (normStr cfg str0) candx :=
      hmin _ (dval_mem_dists cfg key (normStr cfg str0) L wx candx hmemwx hpcx)
    exact le_antisymm hle1 hle2
  -- positional uniqueness: the found winner is w1
  have hpos : l1x = l1 ∧ wx = w1 := by
    have hsplit2 : l1 ++ w1 :: (l2 ++ w2 :: l3) = l1x ++ wx :: l2x := by
      rw [← hL, hsplit]
    rcases List.append_eq_append_iff.mp hsplit2 with ⟨a2, ha2, hrest⟩ | ⟨c2, hc2, hrest⟩
    · -- l1x = l1 ++ a2
      cases a2 with
      | nil =>
        simp only [List.nil_append] at hrest
        obtain ⟨hw, _⟩ := List.cons.inj hrest
        rw [ha2]
        exact ⟨by simp, hw.symm⟩
      | cons z a2t =>
        obtain ⟨hz, _⟩ := List.cons.inj hrest
        subst hz
        exfalso
        have hw1in : w1 ∈ l1x := by
          rw [ha2]
          exact List.mem_append_right _ (List.mem_cons_self _ _)
        have := hstrictx _
          (dval_mem_dists cfg key (normStr cfg str0) l1x w1 s1 hw1in h1)
        rw [heq] at this
        exact lt_irrefl _ this
    · -- l1 = l1x ++ c2
      cases c2 with
      | nil =>
        simp only [List.nil_append] at hrest
        obtain ⟨hw, _⟩ := List.cons.inj hrest
        rw [hc2]
        exact ⟨by simp, hw⟩
      | cons z c2t =>
        obtain ⟨hz, _⟩ := List.cons.inj hrest
        subst hz
        exfalso
        have hwxin : wx ∈ l1 := by
          rw [hc2]
          exact List.mem_append_right _ (List.mem_cons_self _ _)
        have := hfirst _
          (dval_mem_dists cfg key (normStr cfg str0) l1 wx candx hwxin hpcx)
        rw [heq] at this
        exact lt_irrefl _ this
  have hcand : candx = s1 := by
    rw [hpos.2, h1] at hpcx
    simpa using hpcx.symm
  rw [didYouMean_some cfg str0 L key hstr]
  rw [foldlM_eq_scanFold cfg key (normStr cfg str0) L
    (initState cfg (normStr cfg str0)) hwf]
  rw [hfoldeq, hpos.2, hcand]
  simp only
  rw [if_neg (by rw [reprOf_truthy cfg key w1 s1 h1]; exact Bool.false_ne_true)]

/-- Witness for C6: `threshold = null`, input `"ab"`, candidates `"ac"`
and `"ad"` both at distance 1: the first (`"ac"`) wins the tie. -/
theorem didYouMean_tie_first_wins_witness :
    (['a', 'b'] : List Char) ≠ [] ∧
    WfList { threshold := none } none [.vstr ['a', 'c'], .vstr ['a', 'd']] ∧
    procCand { threshold := none } none (.vstr ['a', 'c']) = .ok (some ['a', 'c']) ∧
    procCand { threshold := none } none (.vstr ['a', 'd']) = .ok (some ['a', 'd']) ∧
    dval (normStr { threshold := none } ['a', 'b']) ['a', 'c']
      = dval (normStr { threshold := none } ['a', 'b']) ['a', 'd'] ∧
    beats (initState { threshold := none } (normStr { threshold := none } ['a', 'b'])).winningVal
      (dval (normStr { threshold := none } ['a', 'b']) ['a', 'c']) = true ∧
    (∀ d ∈ dists { threshold := none } none (normStr { threshold := none } ['a', 'b'])
        ([] ++ JsVal.vstr ['a', 'c'] :: ([] ++ JsVal.vstr ['a', 'd'] :: [])),
      dval (normStr { threshold := none } ['a', 'b']) ['a', 'c'] ≤ d) ∧
    (∀ d ∈ dists { threshold := none } none (normStr { threshold := none } ['a', 'b']) [],
      dval (normStr { threshold := none } ['a', 'b']) ['a', 'c'] < d) ∧
    didYouMean { threshold := none } (some ['a', 'b'])
        ([] ++ JsVal.vstr ['a', 'c'] :: ([] ++ JsVal.vstr ['a', 'd'] :: [])) none
      = .ok (reprOf { threshold := none } none (.vstr ['a', 'c']) ['a', 'c']) := by
  refine ⟨by simp, ?_, by with_unfolding_all rfl, by with_unfolding_all rfl,
    by with_unfolding_all rfl, by with_unfolding_all rfl,
    by with_unfolding_all decide, by with_unfolding_all decide, ?_⟩
  · intro item hm
    rcases List.mem_cons.mp hm with h | h
    · exact ⟨some ['a', 'c'], by rw [h]; with_unfolding_all rfl⟩
    · rw [List.mem_singleton.mp h]
      exact ⟨some ['a', 'd'], by with_unfolding_all rfl⟩
  · exact didYouMean_tie_first_wins { threshold := none } ['a', 'b'] none
      [] [] [] (.vstr ['a', 'c']) (.vstr ['a', 'd']) ['a', 'c'] ['a', 'd']
      (by simp)
      (fun item hm => by
        rcases List.mem_cons.mp hm with h | h
        · exact ⟨some ['a', 'c'], by rw [h]; with_unfolding_all rfl⟩
        · rw [List.mem_singleton.mp h]
          exact ⟨some ['a', 'd'], by with_unfolding_all rfl⟩)
      (by with_unfolding_all rfl) (by with_unfolding_all rfl)
      (by with_unfolding_all rfl) (by with_unfolding_all rfl)
      (by with_unfolding_all decide) (by with_unfolding_all decide)
